import Mathlib

/-!
Verification of the speculative sampling implementation (`sampling.py`).

The source operates on `torch` tensors with batch dimension fixed to 1, so a
logit tensor of shape `(1, seq, vocab)` is embedded as `List (List ℚ)` and a
token sequence of shape `(1, seq)` as `List ℕ`.  Real-valued scores are
embedded as rationals.  The transcendental `exp` underlying `F.softmax` is
kept abstract: every definition takes an argument `E : ℚ → ℚ` standing for
`exp`; theorems assume of `E` only what they need (positivity, strict
monotonicity), which `exp` satisfies, and concrete witnesses instantiate `E`
with the computable positive strictly monotone function `ratExp`.

Randomness (`torch.rand` and the draw inside `torch.multinomial`) comes from
one global generator in the source; it is embedded as a stream `rs : ℕ → ℚ`
of uniform draws in `[0,1)` together with a counter that each consumer
advances, in the exact order the source consumes the generator.
`torch.multinomial(probs, 1)` is embedded as inverse-CDF selection on one
uniform draw: the least index whose cumulative probability exceeds the draw.
The `raise RuntimeError` on a drawn token id 0 is embedded as `Except` with
the error value `SampleError.invalidToken`.
-/

namespace SpecSampling

/-- Computable stand-in for `exp` used by concrete witnesses: positive and
strictly monotone on all of `ℚ`, with value `1` at `0`. -/
def ratExp (x : ℚ) : ℚ := if 0 ≤ x then x + 1 else 1 / (1 - x)

/-- Extend the score transform `E` to `-∞` (the masked value written by the
filters, `float('-inf')` in the source) by `exp(-∞) = 0`. -/
def expW (E : ℚ → ℚ) : WithBot ℚ → ℚ := fun x => WithBot.recBotCoe 0 E x

/-- Normalization step of `F.softmax`: divide each weight by the total. -/
def softmaxW (w : List ℚ) : List ℚ := w.map (fun v => v / w.sum)

/-- Softmax (`F.softmax`) over a score vector that may contain `-∞` entries. -/
def softmax (E : ℚ → ℚ) (l : List (WithBot ℚ)) : List ℚ := softmaxW (l.map (expW E))

/-- Softmax (`F.softmax`) over a plain score vector (no masked entries). -/
def softmaxQ (E : ℚ → ℚ) (l : List ℚ) : List ℚ :=
  softmax E (l.map (fun v => (v : WithBot ℚ)))

/-- Values of a vector sorted in descending order, as `torch.sort(descending=True)`
and `torch.topk` produce. -/
def sortDesc (l : List ℚ) : List ℚ := l.insertionSort (fun a b => b ≤ a)

/-- Source lines 18-20: keep only entries not below the `min(top_k, n)`-th
largest value, masking the rest to `-∞`. -/
def top_k_mask (l : List ℚ) (k : ℕ) : List (WithBot ℚ) :=
  let thr := (sortDesc l).getD (min k l.length - 1) 0
  l.map (fun x => if x < thr then (⊥ : WithBot ℚ) else (x : WithBot ℚ))

/-- Indices `0..n-1` sorted so that the corresponding values of `l` descend;
the index permutation produced by `torch.sort(descending=True)`. -/
def argsortDesc (l : List (WithBot ℚ)) : List ℕ :=
  (List.range l.length).insertionSort (fun a b => l.getD b ⊥ ≤ l.getD a ⊥)

/-- Source lines 21-29: nucleus filtering.  Sort descending, take the softmax
of the sorted scores, and mask (to `-∞`) every entry whose rank `j ≥ 1` has
cumulative probability of the ranks before it strictly above `topP`; rank 0 is
always kept (the mask is shifted right by one with the first slot cleared). -/
def top_p_mask (E : ℚ → ℚ) (l : List (WithBot ℚ)) (topP : ℚ) : List (WithBot ℚ) :=
  let perm := argsortDesc l
  let probs := softmax E (perm.map (fun i => l.getD i ⊥))
  let keep : ℕ → Bool := fun j => decide (j = 0) || decide ((probs.take j).sum ≤ topP)
  (List.range l.length).map (fun i => if keep (perm.indexOf i) then l.getD i ⊥ else ⊥)

/-- Source lines 17-30, `top_k_top_p_filter`: apply the top-k mask when
`top_k > 0`, then the top-p mask when `top_p > 0`. -/
def top_k_top_p_filter (E : ℚ → ℚ) (logits : List ℚ) (top_k : ℕ) (topP : ℚ) :
    List (WithBot ℚ) :=
  let l1 := if 0 < top_k then top_k_mask logits top_k else logits.map (fun v => (v : WithBot ℚ))
  if 0 < topP then top_p_mask E l1 topP else l1

/-- Inverse-CDF walk implementing one draw of `torch.multinomial`: return the
first index whose probability exceeds what remains of the uniform draw. -/
def multinomialGo : List ℚ → ℚ → ℕ → ℕ
  | [], _, i => i
  | p :: rest, r, i => if r < p then i else multinomialGo rest (r - p) (i + 1)

/-- One categorical draw from `probs` using the uniform draw `r`. -/
def multinomialIdx (probs : List ℚ) (r : ℚ) : ℕ := multinomialGo probs r 0

/-- The error raised by `sample` (source line 48, `raise RuntimeError`) when
the drawn token is the reserved id 0. -/
inductive SampleError where
  | invalidToken
deriving DecidableEq

/-- The token index drawn by `sample` before the id-0 check (source lines
43-46): scale by temperature, filter, softmax, one multinomial draw. -/
def sampleIdx (E : ℚ → ℚ) (logits : List ℚ) (temperature : ℚ) (top_k : ℕ) (topP : ℚ)
    (r : ℚ) : ℕ :=
  multinomialIdx
    (softmax E (top_k_top_p_filter E (logits.map (fun v => v / temperature)) top_k topP)) r

/-- Source lines 33-49, `sample`: draw one token id, failing on the reserved
id 0. -/
def sample (E : ℚ → ℚ) (logits : List ℚ) (temperature : ℚ) (top_k : ℕ) (topP : ℚ)
    (r : ℚ) : Except SampleError ℕ :=
  let i := sampleIdx E logits temperature top_k topP r
  if i = 0 then .error .invalidToken else .ok i

/-- The last row of a logit tensor, `logits[:, -1, :]`. -/
def lastRow (m : List (List ℚ)) : List ℚ := m.getLastD []

/-- A model, viewed as in the spec: a deterministic map from a token sequence
to one logit vector per position. -/
def Oracle : Type := List ℕ → List (List ℚ)

/-- Source lines 52-64, `autoregressive_sampling`: append `N` tokens one at a
time, sampling each from the model's logits at the current final position.
`rs` is the uniform stream and `k` the position of the next unconsumed draw
(one draw per `sample` call). -/
def autoregressive_sampling (E : ℚ → ℚ) (model : Oracle) :
    List ℕ → ℕ → ℚ → ℕ → ℚ → (ℕ → ℚ) → ℕ → Except SampleError (List ℕ)
  | x, 0, _, _, _, _, _ => .ok x
  | x, Nat.succ nLeft, temperature, top_k, topP, rs, k =>
    match sample E (lastRow (model x)) temperature top_k topP (rs k) with
    | .error e => .error e
    | .ok t => autoregressive_sampling E model (x ++ [t]) nLeft temperature top_k topP rs (k + 1)

/-- Source lines 66-72, `max_fn`: clamp negatives to zero and renormalize. -/
def max_fn (x : List ℚ) : List ℚ :=
  let xMax := x.map (fun v => if 0 < v then v else 0)
  xMax.map (fun v => v / xMax.sum)

/-- Source lines 74-78, `norm_logits`: softmax each row of a logit tensor. -/
def norm_logits (E : ℚ → ℚ) (m : List (List ℚ)) : List (List ℚ) := m.map (softmaxQ E)

/-- Source lines 104-109, the draft phase of one round: `gamma` times, run the
draft model on the current sequence, sample the next token from the last row,
and append it.  Returns the extended sequence, the logits of the last draft
call (the value the loop variable `q` holds afterwards), and the advanced
draw counter. -/
def draftLoop (E : ℚ → ℚ) (approx : Oracle) (temperature : ℚ) (top_k : ℕ) (topP : ℚ)
    (rs : ℕ → ℚ) :
    ℕ → List ℕ → List (List ℚ) → ℕ → Except SampleError (List ℕ × List (List ℚ) × ℕ)
  | 0, x, qlog, k => .ok (x, qlog, k)
  | Nat.succ g, x, _, k =>
    let q := approx x
    match sample E (lastRow q) temperature top_k topP (rs k) with
    | .error e => .error e
    | .ok t => draftLoop E approx temperature top_k topP rs g (x ++ [t]) q (k + 1)

/-- Source line 123, the comparison `r > p / q` on float tensors.  When the
draft probability `qv` is `0` the float quotient is `+∞` (for `pv > 0`) or
NaN (for `pv = 0`); in IEEE arithmetic `r > +∞` and `r > NaN` are both false,
so the comparison can only fire when `qv ≠ 0`. -/
def rejectTest (r pv qv : ℚ) : Bool := decide (qv ≠ 0) && decide (pv / qv < r)

/-- Source lines 117-125, the verification scan with `g` iterations left and
`i` the current loop index: draw `r`, look up the drafted token at offset
`plen + i`, compare `r` against the target/draft probability ratio at position
`plen + i - 1`, stop at the first rejection.  Returns the boundary `n` and the
advanced draw counter. -/
def verifyGo (p q : List (List ℚ)) (x : List ℕ) (plen : ℕ) (rs : ℕ → ℚ) :
    ℕ → ℕ → ℕ → ℕ × ℕ
  | 0, i, k => (plen + i - 1, k)
  | Nat.succ g, i, k =>
    let j := x.getD (plen + i) 0
    if rejectTest (rs k) ((p.getD (plen + i - 1) []).getD j 0)
        ((q.getD (plen + i - 1) []).getD j 0) then
      (plen + i - 1, k + 1)
    else
      verifyGo p q x plen rs g (i + 1) (k + 1)

/-- The full verification scan of one round (source lines 117-125). -/
def verifyLoop (p q : List (List ℚ)) (x : List ℕ) (plen gamma : ℕ) (rs : ℕ → ℚ) (k : ℕ) :
    ℕ × ℕ :=
  verifyGo p q x plen rs gamma 0 k

/-- Result of one orchestrator round: the new running sequence, the acceptance
boundary `n`, and the advanced draw counter. -/
structure RoundOut where
  seq : List ℕ
  n : ℕ
  k : ℕ
deriving DecidableEq

/-- Source lines 100-145, the body of one `while` iteration: draft `gamma`
tokens, softmax the last draft logits and the target logits, scan for the
acceptance boundary `n`, truncate to `n + 1` tokens, then append one more
token - from the clamped renormalized difference `max_fn(p[n] - q[n])` on
rejection, from the target's last row when everything was accepted. -/
def specRound (E : ℚ → ℚ) (approx target : Oracle) (temperature : ℚ) (top_k : ℕ)
    (topP : ℚ) (gamma : ℕ) (pfx : List ℕ) (rs : ℕ → ℚ) (k : ℕ) :
    Except SampleError RoundOut :=
  let plen := pfx.length
  match draftLoop E approx temperature top_k topP rs gamma pfx [] k with
  | .error e => .error e
  | .ok (x, qlog, k1) =>
    let q := norm_logits E qlog
    let p := norm_logits E (target x)
    let nk := verifyLoop p q x plen gamma rs k1
    let n := nk.1
    let kept := x.take (n + 1)
    let tRes :=
      if n < plen + gamma - 1 then
        sample E (max_fn (List.zipWith (fun a b => a - b) (p.getD n []) (q.getD n [])))
          temperature top_k topP (rs nk.2)
      else
        sample E (lastRow p) temperature top_k topP (rs nk.2)
    match tRes with
    | .error e => .error e
    | .ok t => .ok ⟨kept ++ [t], n, nk.2 + 1⟩

/-- Source line 100, the `while prefix.shape[1] < T` loop, with an explicit
round budget `fuel`.  `fuel = 0` cuts the recursion off by returning the
current sequence; the termination theorems show the cutoff is never reached
when `fuel ≥ T - length`, which holds for the budget `speculative_sampling`
passes. -/
def specLoop (E : ℚ → ℚ) (approx target : Oracle) (temperature : ℚ) (top_k : ℕ)
    (topP : ℚ) (gamma T : ℕ) :
    ℕ → List ℕ → (ℕ → ℚ) → ℕ → Except SampleError (List ℕ)
  | 0, pfx, _, _ => .ok pfx
  | Nat.succ fuel, pfx, rs, k =>
    if pfx.length < T then
      match specRound E approx target temperature top_k topP gamma pfx rs k with
      | .error e => .error e
      | .ok out => specLoop E approx target temperature top_k topP gamma T fuel out.seq rs out.k
    else .ok pfx

/-- Source lines 80-147, `speculative_sampling`: run rounds until the length
target `T = len(prefix) + max_len` is met. -/
def speculative_sampling (E : ℚ → ℚ) (pfx : List ℕ) (approx target : Oracle)
    (max_len gamma : ℕ) (temperature : ℚ) (top_k : ℕ) (topP : ℚ) (rs : ℕ → ℚ) (k : ℕ) :
    Except SampleError (List ℕ) :=
  specLoop E approx target temperature top_k topP gamma (pfx.length + max_len) max_len pfx rs k

/-- A model oracle is causal when the logits at a position depend only on the
tokens up to that position; transformer language models, the intended oracle
instances, have this property. -/
def Causal (f : Oracle) : Prop :=
  ∀ s more i, i + 1 ≤ s.length → (f (s ++ more)).getD i [] = (f s).getD i []

/-- A model oracle is shape-correct when it returns one logit row per input
position. -/
def RowComplete (f : Oracle) : Prop := ∀ s, (f s).length = s.length

/-- Target/draft probability looked up by the verification scan at loop index
`i`: row `plen + i - 1` of the matrix, column `x[plen + i]` (the drafted
token). -/
def probAt (m : List (List ℚ)) (x : List ℕ) (plen i : ℕ) : ℚ :=
  (m.getD (plen + i - 1) []).getD (x.getD (plen + i) 0) 0

theorem expW_bot (E : ℚ → ℚ) : expW E ⊥ = 0 := rfl

theorem expW_coe (E : ℚ → ℚ) (q : ℚ) : expW E (q : WithBot ℚ) = E q := rfl

theorem expW_zero (E : ℚ → ℚ) : expW E (0 : WithBot ℚ) = E 0 := rfl

theorem expW_one (E : ℚ → ℚ) : expW E (1 : WithBot ℚ) = E 1 := rfl

theorem expW_ofNat (E : ℚ → ℚ) (n : ℕ) [n.AtLeastTwo] :
    expW E (OfNat.ofNat n : WithBot ℚ) = E (OfNat.ofNat n) := rfl

theorem getD_of_lt {α : Type} (l : List α) (n : ℕ) (d : α) (h : n < l.length) :
    l.getD n d = l[n] := by
  rw [List.getD_eq_getElem?_getD, List.getElem?_eq_getElem h]
  rfl

theorem getD_map_of_lt {α β : Type} (f : α → β) (l : List α) (n : ℕ) (d : α) (d2 : β)
    (h : n < l.length) : (l.map f).getD n d2 = f (l.getD n d) := by
  rw [getD_of_lt _ _ _ h, getD_of_lt _ _ _ (by simpa using h)]
  simp

theorem sum_map_div (l : List ℚ) (c : ℚ) : (l.map (fun v => v / c)).sum = l.sum / c := by
  induction l with
  | nil => simp
  | cons a l ih => simp [ih, add_div]

theorem sum_zipWith_sub (p q : List ℚ) (h : p.length = q.length) :
    (List.zipWith (fun a b => a - b) p q).sum = p.sum - q.sum := by
  induction p generalizing q with
  | nil =>
    cases q with
    | nil => simp
    | cons b q => simp at h
  | cons a p ih =>
    cases q with
    | nil => simp at h
    | cons b q =>
      simp only [List.zipWith_cons_cons, List.sum_cons, ih q (by simpa using h)]
      ring

theorem zipWith_sub_self (p q : List ℚ) (h : p.length = q.length)
    (hz : ∀ a ∈ List.zipWith (fun a b => a - b) p q, a = 0) : p = q := by
  induction p generalizing q with
  | nil =>
    cases q with
    | nil => rfl
    | cons b q => simp at h
  | cons a p ih =>
    cases q with
    | nil => simp at h
    | cons b q =>
      simp only [List.zipWith_cons_cons] at hz
      have h1 : a - b = 0 := hz (a - b) (by simp)
      have h2 : p = q := by
        refine ih q (by simpa using h) ?_
        intro v hv
        exact hz v (by simp [hv])
      rw [h2, sub_eq_zero.mp h1]

theorem sum_pos_of_mem (l : List ℚ) (hnn : ∀ a ∈ l, 0 ≤ a) (b : ℚ) (hb : b ∈ l)
    (hbpos : 0 < b) : 0 < l.sum := by
  induction l with
  | nil => simp at hb
  | cons a l ih =>
    rcases List.mem_cons.mp hb with h | h
    · have : (0:ℚ) ≤ l.sum := List.sum_nonneg (fun v hv => hnn v (by simp [hv]))
      simp only [List.sum_cons]
      subst h
      linarith
    · have ha : (0:ℚ) ≤ a := hnn a (by simp)
      have : (0:ℚ) < l.sum := ih (fun v hv => hnn v (by simp [hv])) h
      simp only [List.sum_cons]
      linarith

theorem sum_nonpos_of_all (l : List ℚ) (hnp : ∀ a ∈ l, a ≤ 0) : l.sum ≤ 0 := by
  induction l with
  | nil => simp
  | cons a l ih =>
    have ha : a ≤ (0:ℚ) := hnp a (by simp)
    have : l.sum ≤ (0:ℚ) := ih (fun v hv => hnp v (by simp [hv]))
    simp only [List.sum_cons]
    linarith

theorem sum_neg_of_mem (l : List ℚ) (hnp : ∀ a ∈ l, a ≤ 0) (b : ℚ) (hb : b ∈ l)
    (hbneg : b < 0) : l.sum < 0 := by
  induction l with
  | nil => simp at hb
  | cons a l ih =>
    rcases List.mem_cons.mp hb with h | h
    · have : l.sum ≤ (0:ℚ) := sum_nonpos_of_all l (fun v hv => hnp v (by simp [hv]))
      simp only [List.sum_cons]
      subst h
      linarith
    · have ha : a ≤ (0:ℚ) := hnp a (by simp)
      have : l.sum < (0:ℚ) := ih (fun v hv => hnp v (by simp [hv])) h
      simp only [List.sum_cons]
      linarith

theorem clampPos_eq_max (v : ℚ) : (if 0 < v then v else 0) = max v 0 := by
  rcases le_or_lt v 0 with h | h
  · simp [max_eq_right h, not_lt.mpr h]
  · simp [max_eq_left h.le, h]

/-- Rewriting of `max_fn` with `max` instead of the conditional clamp. -/
theorem max_fn_eq (l : List ℚ) :
    max_fn l = (l.map (fun v => max v 0)).map
      (fun v => v / (l.map (fun v => max v 0)).sum) := by
  unfold max_fn
  simp only [clampPos_eq_max]

/-- Core of the residual-distribution validity argument: when the two
distributions have equal length and equal sums but are not identical, the sum
of the clamped differences is strictly positive, so the renormalization in
`max_fn` divides by a nonzero value. -/
theorem residual_clamped_sum_pos (p q : List ℚ) (hlen : p.length = q.length)
    (hsum : p.sum = q.sum) (hne : p ≠ q) :
    0 < ((List.zipWith (fun a b => a - b) p q).map (fun v => max v 0)).sum := by
  set d := List.zipWith (fun a b => a - b) p q with hd
  have hdsum : d.sum = 0 := by
    rw [hd, sum_zipWith_sub p q hlen, hsum, sub_self]
  have hex : ∃ v ∈ d, 0 < v := by
    by_contra hno
    push_neg at hno
    rcases Decidable.em (∃ v ∈ d, v < 0) with hneg | hnoneg
    · obtain ⟨v, hv, hvneg⟩ := hneg
      have := sum_neg_of_mem d hno v hv hvneg
      rw [hdsum] at this
      exact absurd this (lt_irrefl 0)
    · push_neg at hnoneg
      have : p = q := by
        refine zipWith_sub_self p q hlen ?_
        intro a ha
        have h1 := hno a ha
        have h2 := hnoneg a ha
        linarith
      exact hne this
  obtain ⟨v, hv, hvpos⟩ := hex
  refine sum_pos_of_mem _ ?_ (max v 0) (List.mem_map_of_mem _ hv) (by simp [hvpos])
  intro a ha
  obtain ⟨b, _, hb⟩ := List.mem_map.mp ha
  rw [← hb]
  exact le_max_right b 0

theorem rejectTest_zero (r pv : ℚ) : rejectTest r pv 0 = false := by
  simp [rejectTest]

theorem rejectTest_self (u v : ℚ) (hu : u < 1) : rejectTest u v v = false := by
  rcases Decidable.em (v = 0) with h | h
  · subst h
    exact rejectTest_zero u 0
  · simp [rejectTest, div_self h, h, not_lt.mpr hu.le]

/-- Unfolding equations for `verifyGo`. -/
theorem verifyGo_zero (p q : List (List ℚ)) (x : List ℕ) (plen : ℕ) (rs : ℕ → ℚ)
    (i k : ℕ) : verifyGo p q x plen rs 0 i k = (plen + i - 1, k) := rfl

theorem verifyGo_succ (p q : List (List ℚ)) (x : List ℕ) (plen : ℕ) (rs : ℕ → ℚ)
    (g i k : ℕ) :
    verifyGo p q x plen rs (g + 1) i k =
      if rejectTest (rs k) (probAt p x plen i) (probAt q x plen i) then
        (plen + i - 1, k + 1)
      else verifyGo p q x plen rs g (i + 1) (k + 1) := rfl

/-- When no iteration rejects, the scan runs to the end and reports
`n = plen + i + g - 1` with all `g` draws consumed. -/
theorem verifyGo_all_accepted (p q : List (List ℚ)) (x : List ℕ) (plen : ℕ)
    (rs : ℕ → ℚ) (g i k : ℕ)
    (hacc : ∀ s, s < g →
      rejectTest (rs (k + s)) (probAt p x plen (i + s)) (probAt q x plen (i + s)) = false) :
    verifyGo p q x plen rs g i k = (plen + (i + g) - 1, k + g) := by
  induction g generalizing i k with
  | zero => simp [verifyGo_zero]
  | succ g ih =>
    rw [verifyGo_succ]
    have h0 := hacc 0 (Nat.succ_pos g)
    simp only [Nat.add_zero] at h0
    rw [h0]
    simp only [if_neg Bool.false_ne_true]
    rw [ih (i + 1) (k + 1) ?_]
    · simp only [Prod.mk.injEq]
      omega
    · intro s hs
      have := hacc (s + 1) (by omega)
      simpa [Nat.add_assoc, Nat.add_comm 1 s] using this

/-- When iteration `s` is the first to reject, the scan stops there, reporting
`n = plen + i + s - 1` with `s + 1` draws consumed. -/
theorem verifyGo_first_reject (p q : List (List ℚ)) (x : List ℕ) (plen : ℕ)
    (rs : ℕ → ℚ) (g i k s : ℕ) (hs : s < g)
    (hacc : ∀ u, u < s →
      rejectTest (rs (k + u)) (probAt p x plen (i + u)) (probAt q x plen (i + u)) = false)
    (hrej : rejectTest (rs (k + s)) (probAt p x plen (i + s)) (probAt q x plen (i + s)) = true) :
    verifyGo p q x plen rs g i k = (plen + (i + s) - 1, k + s + 1) := by
  induction g generalizing i k s with
  | zero => omega
  | succ g ih =>
    rw [verifyGo_succ]
    cases s with
    | zero =>
      simp only [Nat.add_zero] at hrej
      rw [hrej]
      simp
    | succ s =>
      have h0 := hacc 0 (Nat.succ_pos s)
      simp only [Nat.add_zero] at h0
      rw [h0]
      simp only [if_neg Bool.false_ne_true]
      rw [ih (i + 1) (k + 1) s (by omega) ?_ ?_]
      · simp only [Prod.mk.injEq]
        omega
      · intro u hu
        have := hacc (u + 1) (by omega)
        simpa [Nat.add_assoc, Nat.add_comm 1 u] using this
      · simpa [Nat.add_assoc, Nat.add_comm 1 s] using hrej

/-- Bounds on the boundary and the draw counter reported by the scan. -/
theorem verifyGo_bounds (p q : List (List ℚ)) (x : List ℕ) (plen : ℕ) (rs : ℕ → ℚ)
    (g i k : ℕ) (hplen : 1 ≤ plen) :
    plen ≤ (verifyGo p q x plen rs g i k).1 + 1 ∧
      (verifyGo p q x plen rs g i k).1 + 1 ≤ plen + i + g ∧
      k ≤ (verifyGo p q x plen rs g i k).2 ∧
      (verifyGo p q x plen rs g i k).2 ≤ k + g := by
  induction g generalizing i k with
  | zero =>
    simp only [verifyGo_zero]
    omega
  | succ g ih =>
    rw [verifyGo_succ]
    rcases Decidable.em
        (rejectTest (rs k) (probAt p x plen i) (probAt q x plen i) = true) with h | h
    · rw [if_pos h]
      simp only
      omega
    · rw [if_neg h]
      have := ih (i + 1) (k + 1)
      omega

theorem draftLoop_succ (E : ℚ → ℚ) (approx : Oracle) (τ : ℚ) (tk : ℕ) (tp : ℚ)
    (rs : ℕ → ℚ) (g : ℕ) (x : List ℕ) (q0 : List (List ℚ)) (k : ℕ) :
    draftLoop E approx τ tk tp rs (g + 1) x q0 k =
      match sample E (lastRow (approx x)) τ tk tp (rs k) with
      | .error e => .error e
      | .ok t => draftLoop E approx τ tk tp rs g (x ++ [t]) (approx x) (k + 1) := rfl

/-- Inversion for a successful draft phase: it appends exactly `g` tokens,
consumes exactly `g` draws, extends the input sequence, and (for `g ≥ 1`)
reports the draft logits of the last call, which saw all but the final
drafted token. -/
theorem draftLoop_ok (E : ℚ → ℚ) (approx : Oracle) (τ : ℚ) (tk : ℕ) (tp : ℚ)
    (rs : ℕ → ℚ) (g : ℕ) (x : List ℕ) (q0 : List (List ℚ)) (k : ℕ)
    (y : List ℕ) (qlog : List (List ℚ)) (k1 : ℕ)
    (h : draftLoop E approx τ tk tp rs g x q0 k = .ok (y, qlog, k1)) :
    y.length = x.length + g ∧ k1 = k + g ∧ y.take x.length = x ∧
      (0 < g → qlog = approx y.dropLast) := by
  induction g generalizing x q0 k with
  | zero =>
    simp only [draftLoop, Except.ok.injEq, Prod.mk.injEq] at h
    obtain ⟨h1, h2, h3⟩ := h
    subst h1
    subst h3
    exact ⟨by simp, rfl, List.take_length x, fun hh => absurd hh (by omega)⟩
  | succ g ih =>
    rw [draftLoop_succ] at h
    cases hs : sample E (lastRow (approx x)) τ tk tp (rs k) with
    | error e =>
      rw [hs] at h
      exact absurd h (by simp)
    | ok t =>
      rw [hs] at h
      cases g with
      | zero =>
        simp only [draftLoop, Except.ok.injEq, Prod.mk.injEq] at h
        obtain ⟨h1, h2, h3⟩ := h
        subst h1
        subst h2
        subst h3
        refine ⟨by simp, rfl, List.take_left x [t], fun _ => ?_⟩
        simp
      | succ g =>
        have ihh := ih (x ++ [t]) (approx x) (k + 1) h
        obtain ⟨hl, hk, ht, hq⟩ := ihh
        refine ⟨by simp at hl ⊢; omega, by omega, ?_, fun _ => hq (by omega)⟩
        have h1 : y.take (x.length + 1) = x ++ [t] := by
          simpa using ht
        have h2 : (y.take (x.length + 1)).take x.length = y.take x.length := by
          rw [List.take_take]
          congr 1
          omega
        rw [← h2, h1, List.take_left x [t]]

/-- Inversion for one successful orchestrator round: it consists of a
successful draft phase, the verification scan, truncation to `n + 1` tokens,
and one successful extra `sample` from the residual (on rejection) or from
the target's last row (on full acceptance). -/
theorem specRound_ok (E : ℚ → ℚ) (approx target : Oracle) (τ : ℚ) (tk : ℕ) (tp : ℚ)
    (gamma : ℕ) (pfx : List ℕ) (rs : ℕ → ℚ) (k : ℕ) (out : RoundOut)
    (h : specRound E approx target τ tk tp gamma pfx rs k = .ok out) :
    ∃ x qlog k1 n k2 tok,
      draftLoop E approx τ tk tp rs gamma pfx [] k = .ok (x, qlog, k1) ∧
      verifyLoop (norm_logits E (target x)) (norm_logits E qlog) x pfx.length gamma rs k1
        = (n, k2) ∧
      out = ⟨x.take (n + 1) ++ [tok], n, k2 + 1⟩ ∧
      (n < pfx.length + gamma - 1 →
        sample E (max_fn (List.zipWith (fun a b => a - b)
            ((norm_logits E (target x)).getD n []) ((norm_logits E qlog).getD n [])))
          τ tk tp (rs k2) = .ok tok) ∧
      (¬ n < pfx.length + gamma - 1 →
        sample E (lastRow (norm_logits E (target x))) τ tk tp (rs k2) = .ok tok) := by
  unfold specRound at h
  cases hd : draftLoop E approx τ tk tp rs gamma pfx [] k with
  | error e =>
    rw [hd] at h
    exact absurd h (by simp)
  | ok triple =>
    obtain ⟨x, qlog, k1⟩ := triple
    rw [hd] at h
    dsimp only at h
    cases hv : verifyLoop (norm_logits E (target x)) (norm_logits E qlog) x pfx.length
        gamma rs k1 with
    | mk n k2 =>
      rw [hv] at h
      dsimp only at h
      refine ⟨x, qlog, k1, n, k2, ?_⟩
      by_cases hlt : n < pfx.length + gamma - 1
      · rw [if_pos hlt] at h
        cases hs : sample E (max_fn (List.zipWith (fun a b => a - b)
            ((norm_logits E (target x)).getD n []) ((norm_logits E qlog).getD n [])))
            τ tk tp (rs k2) with
        | error e =>
          rw [hs] at h
          exact absurd h (by simp)
        | ok tok =>
          rw [hs] at h
          simp only [Except.ok.injEq] at h
          exact ⟨tok, rfl, hv, h.symm, fun _ => rfl, fun hc => absurd hlt hc⟩
      · rw [if_neg hlt] at h
        cases hs : sample E (lastRow (norm_logits E (target x))) τ tk tp (rs k2) with
        | error e =>
          rw [hs] at h
          exact absurd h (by simp)
        | ok tok =>
          rw [hs] at h
          simp only [Except.ok.injEq] at h
          exact ⟨tok, rfl, hv, h.symm, fun hc => absurd hc hlt, fun _ => rfl⟩

/-- One successful round grows the sequence by at least 1 and at most
`gamma + 1` tokens, and keeps it nonempty. -/
theorem specRound_progress (E : ℚ → ℚ) (approx target : Oracle) (τ : ℚ) (tk : ℕ)
    (tp : ℚ) (gamma : ℕ) (pfx : List ℕ) (rs : ℕ → ℚ) (k : ℕ) (out : RoundOut)
    (hp : pfx ≠ []) (h : specRound E approx target τ tk tp gamma pfx rs k = .ok out) :
    pfx.length + 1 ≤ out.seq.length ∧ out.seq.length ≤ pfx.length + gamma + 1 ∧
      out.seq ≠ [] := by
  obtain ⟨x, qlog, k1, n, k2, tok, hd, hv, hout, -, -⟩ :=
    specRound_ok E approx target τ tk tp gamma pfx rs k out h
  obtain ⟨hxlen, -, -, -⟩ := draftLoop_ok E approx τ tk tp rs gamma pfx [] k x qlog k1 hd
  have hplen : 1 ≤ pfx.length := List.length_pos.mpr hp
  have hb := verifyGo_bounds (norm_logits E (target x)) (norm_logits E qlog) x pfx.length
    rs gamma 0 k1 hplen
  rw [show verifyGo (norm_logits E (target x)) (norm_logits E qlog) x pfx.length rs gamma 0 k1
      = verifyLoop (norm_logits E (target x)) (norm_logits E qlog) x pfx.length gamma rs k1
    from rfl, hv] at hb
  subst hout
  simp only [List.length_append, List.length_take, List.length_cons, List.length_nil]
  refine ⟨?_, ?_, by simp⟩ <;> simp at hb ⊢ <;> omega

theorem specLoop_zero (E : ℚ → ℚ) (approx target : Oracle) (τ : ℚ) (tk : ℕ) (tp : ℚ)
    (gamma T : ℕ) (pfx : List ℕ) (rs : ℕ → ℚ) (k : ℕ) :
    specLoop E approx target τ tk tp gamma T 0 pfx rs k = .ok pfx := rfl

theorem specLoop_succ (E : ℚ → ℚ) (approx target : Oracle) (τ : ℚ) (tk : ℕ) (tp : ℚ)
    (gamma T F : ℕ) (pfx : List ℕ) (rs : ℕ → ℚ) (k : ℕ) :
    specLoop E approx target τ tk tp gamma T (F + 1) pfx rs k =
      if pfx.length < T then
        match specRound E approx target τ tk tp gamma pfx rs k with
        | .error e => .error e
        | .ok out => specLoop E approx target τ tk tp gamma T F out.seq rs out.k
      else .ok pfx := rfl

theorem specLoop_exit (E : ℚ → ℚ) (approx target : Oracle) (τ : ℚ) (tk : ℕ) (tp : ℚ)
    (gamma T F : ℕ) (pfx : List ℕ) (rs : ℕ → ℚ) (k : ℕ) (hT : ¬ pfx.length < T) :
    specLoop E approx target τ tk tp gamma T F pfx rs k = .ok pfx := by
  cases F with
  | zero => rfl
  | succ F => rw [specLoop_succ, if_neg hT]

/-- The loop never pushes the sequence further than `gamma` tokens past the
length target. -/
theorem specLoop_le (E : ℚ → ℚ) (approx target : Oracle) (τ : ℚ) (tk : ℕ) (tp : ℚ)
    (gamma T : ℕ) (F : ℕ) (pfx : List ℕ) (rs : ℕ → ℚ) (k : ℕ) (y : List ℕ)
    (hp : pfx ≠ []) (hlen : pfx.length ≤ T + gamma)
    (h : specLoop E approx target τ tk tp gamma T F pfx rs k = .ok y) :
    y.length ≤ T + gamma ∧ y ≠ [] := by
  induction F generalizing pfx k with
  | zero =>
    rw [specLoop_zero] at h
    simp only [Except.ok.injEq] at h
    subst h
    exact ⟨hlen, hp⟩
  | succ F ih =>
    rw [specLoop_succ] at h
    by_cases hT : pfx.length < T
    · rw [if_pos hT] at h
      cases hr : specRound E approx target τ tk tp gamma pfx rs k with
      | error e =>
        rw [hr] at h
        exact absurd h (by simp)
      | ok out =>
        rw [hr] at h
        dsimp only at h
        obtain ⟨h1, h2, h3⟩ := specRound_progress E approx target τ tk tp gamma pfx rs k
          out hp hr
        exact ih out.seq out.k h3 (by omega) h
    · rw [if_neg hT] at h
      simp only [Except.ok.injEq] at h
      subst h
      exact ⟨hlen, hp⟩

/-- With a round budget of at least `T - length`, the loop only stops once the
length target is met. -/
theorem specLoop_ge (E : ℚ → ℚ) (approx target : Oracle) (τ : ℚ) (tk : ℕ) (tp : ℚ)
    (gamma T : ℕ) (F : ℕ) (pfx : List ℕ) (rs : ℕ → ℚ) (k : ℕ) (y : List ℕ)
    (hp : pfx ≠ []) (hF : T ≤ pfx.length + F)
    (h : specLoop E approx target τ tk tp gamma T F pfx rs k = .ok y) :
    T ≤ y.length := by
  induction F generalizing pfx k with
  | zero =>
    rw [specLoop_zero] at h
    simp only [Except.ok.injEq] at h
    subst h
    omega
  | succ F ih =>
    rw [specLoop_succ] at h
    by_cases hT : pfx.length < T
    · rw [if_pos hT] at h
      cases hr : specRound E approx target τ tk tp gamma pfx rs k with
      | error e =>
        rw [hr] at h
        exact absurd h (by simp)
      | ok out =>
        rw [hr] at h
        dsimp only at h
        obtain ⟨h1, h2, h3⟩ := specRound_progress E approx target τ tk tp gamma pfx rs k
          out hp hr
        exact ih out.seq out.k h3 (by omega) h
    · rw [if_neg hT] at h
      simp only [Except.ok.injEq] at h
      subst h
      omega

/-- Any two round budgets that both cover `T - length` give the same result:
the loop finishes within `T - length` rounds. -/
theorem specLoop_fuel_eq (E : ℚ → ℚ) (approx target : Oracle) (τ : ℚ) (tk : ℕ) (tp : ℚ)
    (gamma T : ℕ) (F1 F2 : ℕ) (pfx : List ℕ) (rs : ℕ → ℚ) (k : ℕ)
    (hp : pfx ≠ []) (h1 : T ≤ pfx.length + F1) (h2 : T ≤ pfx.length + F2) :
    specLoop E approx target τ tk tp gamma T F1 pfx rs k =
      specLoop E approx target τ tk tp gamma T F2 pfx rs k := by
  induction F1 generalizing pfx k F2 with
  | zero =>
    rw [specLoop_zero, specLoop_exit E approx target τ tk tp gamma T F2 pfx rs k (by omega)]
  | succ F1 ih =>
    by_cases hT : pfx.length < T
    · cases F2 with
      | zero => omega
      | succ F2 =>
        rw [specLoop_succ, specLoop_succ, if_pos hT, if_pos hT]
        cases hr : specRound E approx target τ tk tp gamma pfx rs k with
        | error e => rfl
        | ok out =>
          dsimp only
          obtain ⟨hp1, hp2, hp3⟩ := specRound_progress E approx target τ tk tp gamma pfx
            rs k out hp hr
          exact ih _ _ _ hp3 (by omega) (by omega)
    · rw [specLoop_exit E approx target τ tk tp gamma T (F1 + 1) pfx rs k hT,
        specLoop_exit E approx target τ tk tp gamma T F2 pfx rs k hT]

theorem autoregressive_succ (E : ℚ → ℚ) (model : Oracle) (x : List ℕ) (N : ℕ) (τ : ℚ)
    (tk : ℕ) (tp : ℚ) (rs : ℕ → ℚ) (k : ℕ) :
    autoregressive_sampling E model x (N + 1) τ tk tp rs k =
      match sample E (lastRow (model x)) τ tk tp (rs k) with
      | .error e => .error e
      | .ok t => autoregressive_sampling E model (x ++ [t]) N τ tk tp rs (k + 1) := rfl

/-- Claim C9: a successful autoregressive run returns the input extended by
exactly `N` tokens, with the input preserved as a prefix, and each appended
token is produced by one `sample` call (one oracle call, one uniform draw)
on the model's logits at the then-current final position. -/
theorem claim_C9 (E : ℚ → ℚ) (model : Oracle) (x : List ℕ) (N : ℕ) (τ : ℚ) (tk : ℕ)
    (tp : ℚ) (rs : ℕ → ℚ) (k : ℕ) (y : List ℕ) (hx : x ≠ [])
    (h : autoregressive_sampling E model x N τ tk tp rs k = .ok y) :
    y.length = x.length + N ∧ y.take x.length = x ∧
      ∀ i, i < N →
        ∃ t, sample E (lastRow (model (y.take (x.length + i)))) τ tk tp (rs (k + i)) = .ok t ∧
          y[x.length + i]? = some t := by
  induction N generalizing x k with
  | zero =>
    simp only [autoregressive_sampling, Except.ok.injEq] at h
    subst h
    exact ⟨by simp, List.take_length x, fun i hi => absurd hi (by omega)⟩
  | succ N ih =>
    rw [autoregressive_succ] at h
    cases hs : sample E (lastRow (model x)) τ tk tp (rs k) with
    | error e =>
      rw [hs] at h
      exact absurd h (by simp)
    | ok t =>
      rw [hs] at h
      obtain ⟨hlen, htake, hchar⟩ := ih (x ++ [t]) (k + 1) (by simp) h
      have h2 : y.take (x.length + 1) = x ++ [t] := by simpa using htake
      have hxt : y.take x.length = x := by
        have h3 : (y.take (x.length + 1)).take x.length = y.take x.length := by
          rw [List.take_take]
          congr 1
          omega
        rw [← h3, h2, List.take_left x [t]]
      refine ⟨by simp at hlen ⊢; omega, hxt, ?_⟩
      intro i hi
      cases i with
      | zero =>
        refine ⟨t, ?_, ?_⟩
        · simpa [hxt] using hs
        · have h4 : y[x.length]? = (y.take (x.length + 1))[x.length]? := by
            rw [List.getElem?_take]
            simp
          simp only [Nat.add_zero]
          rw [h4, h2]
          simp
      | succ j =>
        obtain ⟨t2, ht1, ht2⟩ := hchar j (by omega)
        have e1 : x.length + (j + 1) = (x ++ [t]).length + j := by
          simp
          omega
        have e2 : k + (j + 1) = k + 1 + j := by omega
        exact ⟨t2, by rw [e1, e2]; exact ht1, by rw [e1]; exact ht2⟩

instance : IsTotal ℚ (fun a b => b ≤ a) := ⟨fun a b => le_total b a⟩

instance : IsTrans ℚ (fun a b => b ≤ a) := ⟨fun _ _ _ h1 h2 => le_trans h2 h1⟩

instance (l : List (WithBot ℚ)) : IsTotal ℕ (fun a b => l.getD b ⊥ ≤ l.getD a ⊥) :=
  ⟨fun _ _ => le_total _ _⟩

instance (l : List (WithBot ℚ)) : IsTrans ℕ (fun a b => l.getD b ⊥ ≤ l.getD a ⊥) :=
  ⟨fun _ _ _ h1 h2 => le_trans h2 h1⟩

/-- The first entry of the descending sort is a maximum of the list. -/
theorem sortDesc_head (l : List ℚ) (hl : l ≠ []) :
    (sortDesc l).getD 0 0 ∈ l ∧ ∀ a ∈ l, a ≤ (sortDesc l).getD 0 0 := by
  have hperm := List.perm_insertionSort (fun a b : ℚ => b ≤ a) l
  have hsort := List.sorted_insertionSort (fun a b : ℚ => b ≤ a) l
  unfold sortDesc
  cases hs : l.insertionSort (fun a b : ℚ => b ≤ a) with
  | nil =>
    rw [hs] at hperm
    exact absurd hperm.symm.eq_nil hl
  | cons h t1 =>
    rw [hs] at hperm hsort
    have hh : (h :: t1).getD 0 0 = h := rfl
    rw [hh]
    constructor
    · exact hperm.subset (by simp)
    · intro a ha
      have : a ∈ h :: t1 := hperm.symm.subset ha
      rcases List.mem_cons.mp this with h1 | h1
      · exact le_of_eq h1
      · exact List.rel_of_sorted_cons hsort a h1

/-- With a unique maximum at index `m` and `top_k = 1`, the threshold read off
the sorted list is exactly the maximal value. -/
theorem topk_one_thr (l : List ℚ) (m : ℕ) (hm : m < l.length)
    (hmax : ∀ j, j < l.length → j ≠ m → l.getD j 0 < l.getD m 0) :
    (sortDesc l).getD (min 1 l.length - 1) 0 = l.getD m 0 := by
  have hl : l ≠ [] := by
    intro hnil
    rw [hnil] at hm
    simp at hm
  have hmin : min 1 l.length - 1 = 0 := by
    have : 0 < l.length := by omega
    omega
  rw [hmin]
  obtain ⟨hmem, hbound⟩ := sortDesc_head l hl
  obtain ⟨j, hj, hjv⟩ := List.mem_iff_getElem.mp hmem
  rcases Decidable.em (j = m) with he | he
  · subst he
    rw [← hjv, getD_of_lt l j 0 hj]
  · exfalso
    have h1 : l.getD j 0 < l.getD m 0 := hmax j hj he
    have h2 : l.getD m 0 ≤ (sortDesc l).getD 0 0 :=
      hbound _ (by rw [getD_of_lt l m 0 hm]; exact List.getElem_mem hm)
    rw [← hjv, getD_of_lt l m 0 hm] at h2
    rw [getD_of_lt l j 0 hj, getD_of_lt l m 0 hm] at h1
    exact absurd h2 (not_le.mpr h1)

/-- With a unique maximum at `m`, the `top_k = 1` mask keeps exactly the entry
at `m`. -/
theorem top_k_mask_one (l : List ℚ) (m : ℕ) (hm : m < l.length)
    (hmax : ∀ j, j < l.length → j ≠ m → l.getD j 0 < l.getD m 0) :
    (top_k_mask l 1).length = l.length ∧
      (top_k_mask l 1)[m]? = some ((l.getD m 0 : ℚ) : WithBot ℚ) ∧
      ∀ j, j < l.length → j ≠ m → (top_k_mask l 1)[j]? = some ⊥ := by
  simp only [top_k_mask]
  rw [topk_one_thr l m hm hmax]
  refine ⟨by simp, ?_, ?_⟩
  · rw [List.getElem?_map, List.getElem?_eq_getElem hm]
    rw [getD_of_lt l m 0 hm]
    simp
  · intro j hj hne
    rw [List.getElem?_map, List.getElem?_eq_getElem hj]
    have h1 : l[j] < l.getD m 0 := by
      have := hmax j hj hne
      rwa [getD_of_lt l j 0 hj] at this
    simp [if_pos h1]
    rw [← List.getD_eq_getElem?_getD]
    exact h1

/-- When every entry except the one at `m` is `-∞` and the entry at `m` is
not, the descending argsort places `m` first. -/
theorem argsort_head (l : List (WithBot ℚ)) (m : ℕ) (hm : m < l.length)
    (hbot : ∀ j, j < l.length → j ≠ m → l.getD j ⊥ = ⊥) (hne : l.getD m ⊥ ≠ ⊥) :
    ∃ rest, argsortDesc l = m :: rest := by
  have hperm := List.perm_insertionSort
    (fun a b => l.getD b ⊥ ≤ l.getD a ⊥) (List.range l.length)
  have hsort := List.sorted_insertionSort
    (fun a b => l.getD b ⊥ ≤ l.getD a ⊥) (List.range l.length)
  unfold argsortDesc
  cases hs : (List.range l.length).insertionSort (fun a b => l.getD b ⊥ ≤ l.getD a ⊥) with
  | nil =>
    rw [hs] at hperm
    have : (List.range l.length) = [] := hperm.symm.eq_nil
    rw [List.range_eq_nil] at this
    omega
  | cons h rest =>
    rw [hs] at hperm hsort
    rcases Decidable.em (h = m) with he | he
    · exact ⟨rest, by rw [he]⟩
    · exfalso
      have hmem : m ∈ h :: rest := hperm.symm.subset (List.mem_range.mpr hm)
      have hmt : m ∈ rest := by
        rcases List.mem_cons.mp hmem with h1 | h1
        · exact absurd h1.symm he
        · exact h1
      have hhr : h ∈ List.range l.length := hperm.subset (by simp)
      have hh : h < l.length := List.mem_range.mp hhr
      have hrel : l.getD m ⊥ ≤ l.getD h ⊥ := List.rel_of_sorted_cons hsort m hmt
      rw [hbot h hh (fun hc => he hc)] at hrel
      exact hne (le_bot_iff.mp hrel)

theorem sum_eq_zero_of_all (w : List ℚ) (hz : ∀ j, j < w.length → w[j]? = some 0) :
    w.sum = 0 := by
  induction w with
  | nil => simp
  | cons a w ih =>
    have h0 : a = 0 := by
      have := hz 0 (by simp)
      simpa using this
    have hr : w.sum = 0 := by
      refine ih ?_
      intro j hj
      have := hz (j + 1) (by simpa using hj)
      simpa using this
    simp [h0, hr]

/-- A list that is zero everywhere except index `m` sums to its entry at `m`. -/
theorem sum_eq_single (w : List ℚ) (m : ℕ) (c : ℚ) (hm : w[m]? = some c)
    (hz : ∀ j, j < w.length → j ≠ m → w[j]? = some 0) : w.sum = c := by
  induction w generalizing m with
  | nil => simp at hm
  | cons a w ih =>
    cases m with
    | zero =>
      have ha : a = c := by simpa using hm
      have hr : w.sum = 0 := by
        refine sum_eq_zero_of_all w ?_
        intro j hj
        have := hz (j + 1) (by simpa using hj) (by omega)
        simpa using this
      simp [ha, hr]
    | succ m =>
      have ha : a = 0 := by
        have := hz 0 (by simp) (by omega)
        simpa using this
      have hr : w.sum = c := by
        refine ih m (by simpa using hm) ?_
        intro j hj hne
        have := hz (j + 1) (by simpa using hj) (by omega)
        simpa using this
      simp [ha, hr]

/-- The inverse-CDF walk lands on index `m` when all probability before `m`
is zero and the draw is below the mass at `m`. -/
theorem multinomialGo_indicator (w : List ℚ) (m i : ℕ) (r c : ℚ) (hm : w[m]? = some c)
    (hz : ∀ j, j < m → w[j]? = some 0) (hr0 : 0 ≤ r) (hrc : r < c) :
    multinomialGo w r i = i + m := by
  induction w generalizing m i r with
  | nil => simp at hm
  | cons a w ih =>
    cases m with
    | zero =>
      have ha : a = c := by simpa using hm
      rw [multinomialGo, if_pos (ha ▸ hrc)]
      omega
    | succ m =>
      have ha : a = 0 := by
        have := hz 0 (by omega)
        simpa using this
      rw [multinomialGo, if_neg (by rw [ha]; exact not_lt.mpr hr0)]
      rw [ha, sub_zero]
      rw [ih m (i + 1) r (by simpa using hm) ?_ hr0 hrc]
      · omega
      · intro j hj
        have := hz (j + 1) (by omega)
        simpa using this

theorem lt_length_of_getElem_eq_some {α : Type} (l : List α) (m : ℕ) (a : α)
    (h : l[m]? = some a) : m < l.length := by
  by_contra hc
  push_neg at hc
  rw [List.getElem?_eq_none hc] at h
  exact absurd h (by simp)

/-- Nucleus filtering never removes the top-ranked entry; when every other
entry is already `-∞` the mask is the identity. -/
theorem top_p_mask_keep (E : ℚ → ℚ) (tp : ℚ) (f1 : List (WithBot ℚ)) (m : ℕ) (v : ℚ)
    (hm : f1[m]? = some ((v : ℚ) : WithBot ℚ))
    (hz : ∀ j, j < f1.length → j ≠ m → f1[j]? = some ⊥) :
    (top_p_mask E f1 tp).length = f1.length ∧
      (top_p_mask E f1 tp)[m]? = some ((v : ℚ) : WithBot ℚ) ∧
      ∀ j, j < f1.length → j ≠ m → (top_p_mask E f1 tp)[j]? = some ⊥ := by
  have hmlen : m < f1.length := lt_length_of_getElem_eq_some f1 m _ hm
  have hgm : f1.getD m ⊥ = ((v : ℚ) : WithBot ℚ) := by
    rw [List.getD_eq_getElem?_getD, hm]
    rfl
  have hgj : ∀ j, j < f1.length → j ≠ m → f1.getD j ⊥ = ⊥ := by
    intro j hj hne
    rw [List.getD_eq_getElem?_getD, hz j hj hne]
    rfl
  obtain ⟨rest, hperm⟩ := argsort_head f1 m hmlen hgj (by rw [hgm]; exact WithBot.coe_ne_bot)
  simp only [top_p_mask]
  rw [hperm]
  refine ⟨by simp, ?_, ?_⟩
  · rw [List.getElem?_map, List.getElem?_range hmlen]
    simp [List.indexOf_cons_self, hgm]
    rw [hm]
    rfl
  · intro j hj hne
    rw [List.getElem?_map, List.getElem?_range hj]
    simp [hz j hj hne]

/-- Softmax of a vector that is `-∞` everywhere except one finite entry is the
one-hot distribution at that entry. -/
theorem softmax_indicator (E : ℚ → ℚ) (f : List (WithBot ℚ)) (m : ℕ) (v : ℚ)
    (hm : f[m]? = some ((v : ℚ) : WithBot ℚ))
    (hz : ∀ j, j < f.length → j ≠ m → f[j]? = some ⊥) (hE : 0 < E v) :
    (softmax E f).length = f.length ∧ (softmax E f)[m]? = some 1 ∧
      ∀ j, j < f.length → j ≠ m → (softmax E f)[j]? = some 0 := by
  have hmlen : m < f.length := lt_length_of_getElem_eq_some f m _ hm
  have hwm : (f.map (expW E))[m]? = some (E v) := by
    rw [List.getElem?_map, hm]
    simp [expW_coe]
  have hwz : ∀ j, j < (f.map (expW E)).length → j ≠ m → (f.map (expW E))[j]? = some 0 := by
    intro j hj hne
    rw [List.getElem?_map, hz j (by simpa using hj) hne]
    simp [expW_bot]
  have hsum : (f.map (expW E)).sum = E v := sum_eq_single (f.map (expW E)) m (E v) hwm hwz
  unfold softmax softmaxW
  rw [hsum]
  refine ⟨by simp, ?_, ?_⟩
  · rw [List.getElem?_map, hwm]
    simp [div_self (ne_of_gt hE)]
  · intro j hj hne
    rw [List.getElem?_map, hwz j (by simpa using hj) hne]
    simp

/-- Claim C8: for a fixed logit vector with a unique post-temperature maximum
at index `m` and any uniform draw in `[0,1)`, the sampler with `top_k = 1`
draws index `m` with certainty (any `top_p` setting included, since the
top-ranked entry is never removed), and with `top_k = 0` and `top_p = 0` no
truncation is applied, so the draw is taken from the full softmax of the
temperature-scaled logits. -/
theorem claim_C8 (E : ℚ → ℚ) (logits : List ℚ) (τ : ℚ) (tp r : ℚ) (m : ℕ)
    (hE : ∀ v, 0 < E v) (hr0 : 0 ≤ r) (hr1 : r < 1) (hm : m < logits.length)
    (hmax : ∀ j, j < logits.length → j ≠ m →
      logits.getD j 0 / τ < logits.getD m 0 / τ) :
    sampleIdx E logits τ 1 tp r = m ∧
      (m ≠ 0 → sample E logits τ 1 tp r = .ok m) ∧
      (∀ l2 τ2 r2, sampleIdx E l2 τ2 0 0 r2 =
        multinomialIdx (softmaxQ E (l2.map (fun v => v / τ2))) r2) := by
  have hmain : sampleIdx E logits τ 1 tp r = m := by
    have hslen : (logits.map (fun v => v / τ)).length = logits.length := by simp
    have hsmax : ∀ j, j < (logits.map (fun v => v / τ)).length → j ≠ m →
        (logits.map (fun v => v / τ)).getD j 0 < (logits.map (fun v => v / τ)).getD m 0 := by
      intro j hj hne
      rw [getD_map_of_lt _ logits j 0 0 (by simpa using hj),
        getD_map_of_lt _ logits m 0 0 (by simpa [hslen] using hm)]
      exact hmax j (by simpa using hj) hne
    obtain ⟨hklen, hkm, hkz⟩ :=
      top_k_mask_one (logits.map (fun v => v / τ)) m (by simpa using hm) hsmax
    have hfacts : (top_k_top_p_filter E (logits.map (fun v => v / τ)) 1 tp).length
          = logits.length ∧
        (top_k_top_p_filter E (logits.map (fun v => v / τ)) 1 tp)[m]?
          = some (((logits.map (fun v => v / τ)).getD m 0 : ℚ) : WithBot ℚ) ∧
        ∀ j, j < logits.length → j ≠ m →
          (top_k_top_p_filter E (logits.map (fun v => v / τ)) 1 tp)[j]? = some ⊥ := by
      unfold top_k_top_p_filter
      rw [if_pos (by omega : 0 < 1)]
      by_cases htp : 0 < tp
      · rw [if_pos htp]
        obtain ⟨h1, h2, h3⟩ := top_p_mask_keep E tp (top_k_mask (logits.map (fun v => v / τ)) 1)
          m _ hkm (fun j hj hne => hkz j (by rw [hklen] at hj; exact hj) hne)
        refine ⟨by rw [h1, hklen, hslen], h2, ?_⟩
        intro j hj hne
        exact h3 j (by rw [hklen, hslen]; exact hj) hne
      · rw [if_neg htp]
        exact ⟨by rw [hklen, hslen], hkm, fun j hj hne => hkz j (by rwa [hslen]) hne⟩
    obtain ⟨hflen, hfm, hfz⟩ := hfacts
    obtain ⟨hplen, hpm, hpz⟩ := softmax_indicator E
      (top_k_top_p_filter E (logits.map (fun v => v / τ)) 1 tp) m _ hfm
      (fun j hj hne => hfz j (by rwa [hflen] at hj) hne) (hE _)
    unfold sampleIdx multinomialIdx
    rw [multinomialGo_indicator (softmax E (top_k_top_p_filter E
        (logits.map (fun v => v / τ)) 1 tp)) m 0 r 1 hpm ?_ hr0 hr1]
    · omega
    · intro j hj
      refine hpz j ?_ (by omega)
      rw [hflen]
      omega
  refine ⟨hmain, ?_, fun l2 τ2 r2 => rfl⟩
  intro hm0
  unfold sample
  rw [hmain, if_neg hm0]

theorem rejectTest_false_iff (r pv qv : ℚ) (h : 0 < qv) :
    rejectTest r pv qv = false ↔ r ≤ pv / qv := by
  simp [rejectTest, ne_of_gt h, not_lt]

theorem rejectTest_true_iff (r pv qv : ℚ) (h : 0 < qv) :
    rejectTest r pv qv = true ↔ pv / qv < r := by
  simp [rejectTest, ne_of_gt h]

/-- Claim C1: with positive draft probabilities at the compared positions (as
softmax outputs are), the verification scan accepts the drafted token at
offset `plen + i` exactly when the draw `r_i` is at most
`target_prob / draft_prob` at position `plen + i - 1`; it stops at the first
rejection with boundary `n = plen + i - 1` after consuming `i + 1` draws,
reports `n = plen + gamma - 1` when nothing is rejected, and the round keeps
exactly the first `n + 1` tokens of the drafted sequence before appending the
extra token. -/
theorem claim_C1 (p q : List (List ℚ)) (x : List ℕ) (plen gamma : ℕ) (rs : ℕ → ℚ)
    (k : ℕ) (hq : ∀ i, i < gamma → 0 < probAt q x plen i) :
    ((∀ i, i < gamma → rs (k + i) ≤ probAt p x plen i / probAt q x plen i) →
      verifyLoop p q x plen gamma rs k = (plen + gamma - 1, k + gamma)) ∧
    (∀ i, i < gamma →
      (∀ t, t < i → rs (k + t) ≤ probAt p x plen t / probAt q x plen t) →
      probAt p x plen i / probAt q x plen i < rs (k + i) →
      verifyLoop p q x plen gamma rs k = (plen + i - 1, k + i + 1)) ∧
    (∀ (E : ℚ → ℚ) (approx target : Oracle) (τ : ℚ) (tk : ℕ) (tp : ℚ) (pfx : List ℕ)
      (out : RoundOut) (xd : List ℕ) (qlog : List (List ℚ)) (k1 : ℕ),
      specRound E approx target τ tk tp gamma pfx rs k = .ok out →
      draftLoop E approx τ tk tp rs gamma pfx [] k = .ok (xd, qlog, k1) →
      out.seq.dropLast = xd.take (out.n + 1)) := by
  refine ⟨?_, ?_, ?_⟩
  · intro hall
    unfold verifyLoop
    rw [verifyGo_all_accepted p q x plen rs gamma 0 k ?_]
    · simp
    · intro s hs
      rw [Nat.zero_add]
      exact (rejectTest_false_iff _ _ _ (hq s hs)).mpr (hall s hs)
  · intro i hi hprev hrej
    unfold verifyLoop
    rw [verifyGo_first_reject p q x plen rs gamma 0 k i hi ?_ ?_]
    · simp
    · intro u hu
      rw [Nat.zero_add]
      exact (rejectTest_false_iff _ _ _ (hq u (by omega))).mpr (hprev u hu)
    · rw [Nat.zero_add]
      exact (rejectTest_true_iff _ _ _ (hq i hi)).mpr hrej
  · intro E approx target τ tk tp pfx out xd qlog k1 hro hd
    obtain ⟨x2, qlog2, k12, n, k2, tok, hd2, hv, hout, -, -⟩ :=
      specRound_ok E approx target τ tk tp gamma pfx rs k out hro
    rw [hd] at hd2
    simp only [Except.ok.injEq, Prod.mk.injEq] at hd2
    obtain ⟨he1, he2, he3⟩ := hd2
    subst he1
    subst hout
    simp

/-- Claim C2: in a round that rejected (boundary strictly inside the drafted
window), the appended token is produced by the Token Sampler - with the
round's temperature, `top_k`, `top_p` applied as to raw logits - from the
residual distribution at position `n`: the componentwise difference of target
and draft probabilities, clamped at zero and renormalized.  In a round with
all `gamma` drafted tokens accepted, the appended token is sampled from the
target distribution at the final position. -/
theorem claim_C2 (E : ℚ → ℚ) (approx target : Oracle) (τ : ℚ) (tk : ℕ) (tp : ℚ)
    (gamma : ℕ) (pfx : List ℕ) (rs : ℕ → ℚ) (k : ℕ) (out : RoundOut) (x : List ℕ)
    (qlog : List (List ℚ)) (k1 n k2 : ℕ)
    (hro : specRound E approx target τ tk tp gamma pfx rs k = .ok out)
    (hd : draftLoop E approx τ tk tp rs gamma pfx [] k = .ok (x, qlog, k1))
    (hv : verifyLoop (norm_logits E (target x)) (norm_logits E qlog) x pfx.length gamma
      rs k1 = (n, k2)) :
    (n < pfx.length + gamma - 1 →
      ∃ tok, sample E
          ((fun d => (d.map (fun v => max v 0)).map
            (fun v => v / (d.map (fun v => max v 0)).sum))
            (List.zipWith (fun a b => a - b)
              ((norm_logits E (target x)).getD n []) ((norm_logits E qlog).getD n [])))
          τ tk tp (rs k2) = .ok tok ∧
        out.seq = x.take (n + 1) ++ [tok] ∧ out.n = n) ∧
    (¬ n < pfx.length + gamma - 1 →
      ∃ tok, sample E (lastRow (norm_logits E (target x))) τ tk tp (rs k2) = .ok tok ∧
        out.seq = x.take (n + 1) ++ [tok] ∧ out.n = n) := by
  obtain ⟨x2, qlog2, k12, n2, k22, tok, hd2, hv2, hout, hrej, hacc⟩ :=
    specRound_ok E approx target τ tk tp gamma pfx rs k out hro
  rw [hd] at hd2
  simp only [Except.ok.injEq, Prod.mk.injEq] at hd2
  obtain ⟨he1, he2, he3⟩ := hd2
  subst he1
  subst he2
  subst he3
  rw [hv] at hv2
  simp only [Prod.mk.injEq] at hv2
  obtain ⟨hn, hk⟩ := hv2
  subst hn
  subst hk
  constructor
  · intro hlt
    refine ⟨tok, ?_, by rw [hout], by rw [hout]⟩
    have hb : (fun d : List ℚ => (d.map (fun v => max v 0)).map
          (fun v => v / (d.map (fun v => max v 0)).sum))
        (List.zipWith (fun a b => a - b)
          ((norm_logits E (target x)).getD n []) ((norm_logits E qlog).getD n []))
        = max_fn (List.zipWith (fun a b => a - b)
          ((norm_logits E (target x)).getD n []) ((norm_logits E qlog).getD n [])) := by
      rw [max_fn_eq]
    rw [hb]
    exact hrej hlt
  · intro hge
    exact ⟨tok, hacc hge, by rw [hout], by rw [hout]⟩

theorem getD_norm (E : ℚ → ℚ) (m : List (List ℚ)) (row : ℕ) (h : row < m.length) :
    (norm_logits E m).getD row [] = softmaxQ E (m.getD row []) := by
  unfold norm_logits
  exact getD_map_of_lt (softmaxQ E) m row [] [] h

/-- Deterministic stand-in oracle for concrete runs: independent of the input
tokens, it scores every position with the fixed logit row `[0, 0, 1]` over a
three-token vocabulary (so it is trivially causal and shape-correct, and a
pair of copies of it is a pair of identical draft/target oracles). -/
def constOracle : Oracle := fun s => List.replicate s.length [0, 0, 1]

/-- The uniform stream whose every draw is `1/2`. -/
def halfStream : ℕ → ℚ := fun _ => 1 / 2

theorem constOracle_causal : Causal constOracle := by
  intro s more i hi
  unfold constOracle
  have h1 : i < (s ++ more).length := by
    rw [List.length_append]
    omega
  rw [List.getD_eq_getElem?_getD, List.getD_eq_getElem?_getD,
    List.getElem?_replicate, List.getElem?_replicate]
  rw [if_pos h1, if_pos (by omega : i < s.length)]

theorem constOracle_rowComplete : RowComplete constOracle := by
  intro s
  simp [constOracle]

/-- Claim C3, amended part: with the draft and target oracles given by one and
the same causal, shape-correct oracle, and uniform draws below 1, every round
accepts all `gamma` drafted tokens (the acceptance ratio is 1 at every
compared position), so each round appends exactly `gamma + 1` tokens.  The
full original claim - that the returned sequence equals the autoregressive
one - is refuted by `claim_C3_counterexample`. -/
theorem claim_C3 (E : ℚ → ℚ) (f : Oracle) (τ : ℚ) (tk : ℕ) (tp : ℚ) (gamma : ℕ)
    (pfx : List ℕ) (rs : ℕ → ℚ) (k : ℕ) (out : RoundOut)
    (hc : Causal f) (hw : RowComplete f) (hg : 1 ≤ gamma) (hp : pfx ≠ [])
    (hr1 : ∀ m2, rs m2 < 1)
    (h : specRound E f f τ tk tp gamma pfx rs k = .ok out) :
    out.n = pfx.length + gamma - 1 ∧ out.seq.length = pfx.length + gamma + 1 := by
  obtain ⟨x, qlog, k1, n, k2, tok, hd, hv, hout, hrej, hacc⟩ :=
    specRound_ok E f f τ tk tp gamma pfx rs k out h
  obtain ⟨hxlen, hk1, hxtake, hqlog⟩ := draftLoop_ok E f τ tk tp rs gamma pfx [] k
    x qlog k1 hd
  have hqe : qlog = f x.dropLast := hqlog (by omega)
  have hplen : 1 ≤ pfx.length := List.length_pos.mpr hp
  have hxne : x ≠ [] := by
    intro hc2
    rw [hc2] at hxlen
    simp at hxlen
    omega
  have hdl : x.dropLast.length = pfx.length + gamma - 1 := by
    rw [List.length_dropLast, hxlen]
  have hdrop : x.dropLast ++ [x.getLast hxne] = x := List.dropLast_append_getLast hxne
  have hrows : ∀ i, i < gamma → probAt (norm_logits E (f x)) x pfx.length i
      = probAt (norm_logits E qlog) x pfx.length i := by
    intro i hi
    have hrow : pfx.length + i - 1 < x.dropLast.length := by omega
    have hcaus : (f x).getD (pfx.length + i - 1) []
        = (f x.dropLast).getD (pfx.length + i - 1) [] := by
      conv_lhs => rw [← hdrop]
      exact hc x.dropLast [x.getLast hxne] (pfx.length + i - 1) (by omega)
    unfold probAt
    rw [hqe, getD_norm E (f x) _ (by rw [hw x]; omega),
      getD_norm E (f x.dropLast) _ (by rw [hw x.dropLast]; omega), hcaus]
  have hvv : verifyLoop (norm_logits E (f x)) (norm_logits E qlog) x pfx.length gamma
      rs k1 = (pfx.length + gamma - 1, k1 + gamma) := by
    unfold verifyLoop
    rw [verifyGo_all_accepted _ _ _ _ _ gamma 0 k1 ?_]
    · simp
    · intro s hs
      rw [Nat.zero_add, hrows s hs]
      exact rejectTest_self _ _ (hr1 _)
  rw [hv] at hvv
  simp only [Prod.mk.injEq] at hvv
  obtain ⟨hn, -⟩ := hvv
  subst hout
  simp only
  constructor
  · exact hn
  · have hfull : n + 1 = x.length := by omega
    rw [List.length_append, hfull, List.take_length]
    simp
    omega

/-- Claim C3, counterexample to the full claim: a pair of identical, causal,
shape-correct oracles and the fixed stream of draws `1/2`, on which
speculative decoding returns `[1, 2, 1]` while autoregressive sampling over
the same draws returns `[1, 2]` - the outputs differ (the speculative run
consumes an acceptance draw, overshoots the length target, and re-softmaxes
the already-normalized target row for its bonus token). -/
theorem claim_C3_counterexample :
    Causal constOracle ∧ RowComplete constOracle ∧
    speculative_sampling ratExp [1] constOracle constOracle 1 1 1 0 0 halfStream 0
      = .ok [1, 2, 1] ∧
    autoregressive_sampling ratExp constOracle [1] 1 1 0 0 halfStream 0 = .ok [1, 2] ∧
    ([1, 2, 1] : List ℕ) ≠ [1, 2] := by
  refine ⟨constOracle_causal, constOracle_rowComplete, ?_, ?_, by simp⟩
  · norm_num [speculative_sampling, specLoop, specRound, draftLoop, verifyLoop, verifyGo,
      rejectTest, norm_logits, max_fn, sample, sampleIdx, multinomialIdx, multinomialGo,
      softmax, softmaxQ, softmaxW, top_k_top_p_filter, lastRow, constOracle, halfStream,
      ratExp, List.replicate, expW_bot, expW_coe, expW_zero, expW_one, expW_ofNat]
  · norm_num [autoregressive_sampling, sample, sampleIdx, multinomialIdx, multinomialGo,
      softmax, softmaxQ, softmaxW, top_k_top_p_filter, lastRow, constOracle, halfStream,
      ratExp, List.replicate, expW_bot, expW_coe, expW_zero, expW_one, expW_ofNat]

/-- Claim C4, amended part: the acceptance test is defined when the draft
probability is zero - the float comparison `r > p / q` cannot fault and simply
evaluates to false (the quotient is `+∞` or NaN) - but in consequence such a
token is always ACCEPTED, not rejected: a scan whose compared draft
probabilities are all zero accepts every drafted token.  The original claim
(always-reject) is refuted by `claim_C4_counterexample`. -/
theorem claim_C4 (p q : List (List ℚ)) (x : List ℕ) (plen gamma : ℕ) (rs : ℕ → ℚ)
    (k : ℕ) (hq0 : ∀ i, i < gamma → probAt q x plen i = 0) :
    (∀ r pv, rejectTest r pv 0 = false) ∧
      verifyLoop p q x plen gamma rs k = (plen + gamma - 1, k + gamma) := by
  refine ⟨fun r pv => rejectTest_zero r pv, ?_⟩
  unfold verifyLoop
  rw [verifyGo_all_accepted p q x plen rs gamma 0 k ?_]
  · simp
  · intro s hs
    rw [Nat.zero_add, hq0 s hs]
    exact rejectTest_zero _ _

/-- Claim C4, counterexample: a round with `prefix_len = 1`, `gamma = 1`,
draft probability 0 for the drafted token (position 0, token 2) and draw
`r = 9/10`.  The claim demands rejection (boundary `n = prefix_len - 1 = 0`);
the code's comparison `9/10 > p/q` is false under float semantics for `q = 0`,
so the token is accepted and the scan reports `n = 1`. -/
theorem claim_C4_counterexample :
    probAt [[(1:ℚ), 1, 0]] [5, 2] 1 0 = 0 ∧
    verifyLoop [[(0:ℚ), 0, 1]] [[(1:ℚ), 1, 0]] [5, 2] 1 1 (fun _ => 9 / 10) 0 = (1, 1) ∧
    (1 : ℕ) ≠ 1 - 1 := by
  refine ⟨by norm_num [probAt], ?_, by omega⟩
  norm_num [verifyLoop, verifyGo, rejectTest, probAt]

/-- Claim C5, amended part: for equal-length distributions with equal unit
sums that are not identical (as target and draft always are at a rejecting
position), the residual `max_fn(p - q)` has no negative entries and sums to 1.
The original claim over arbitrary valid pairs fails at `p = q`, where the
clamped difference sums to zero and the renormalization divides by zero; see
`claim_C5_counterexample`. -/
theorem claim_C5 (p q : List ℚ) (hlen : p.length = q.length)
    (_hpn : ∀ a ∈ p, 0 ≤ a) (_hqn : ∀ a ∈ q, 0 ≤ a)
    (hps : p.sum = 1) (hqs : q.sum = 1) (hne : p ≠ q) :
    (∀ a ∈ max_fn (List.zipWith (fun a b => a - b) p q), 0 ≤ a) ∧
      (max_fn (List.zipWith (fun a b => a - b) p q)).sum = 1 := by
  have hS := residual_clamped_sum_pos p q hlen (by rw [hps, hqs]) hne
  rw [max_fn_eq]
  constructor
  · intro a ha
    obtain ⟨b, hb, hba⟩ := List.mem_map.mp ha
    obtain ⟨c, -, hcb⟩ := List.mem_map.mp hb
    rw [← hba]
    exact div_nonneg (by rw [← hcb]; exact le_max_right c 0) (le_of_lt hS)
  · rw [sum_map_div]
    exact div_self (ne_of_gt hS)

/-- Claim C5, counterexample: the pair `p = q = [1]` is a valid pair of
distributions (non-negative, each summing to 1), yet the residual sums to 0,
not 1 (in the float implementation the entries are NaN: the clamped
difference is identically zero and the normalization divides by its zero
sum). -/
theorem claim_C5_counterexample :
    (∀ a ∈ [(1:ℚ)], 0 ≤ a) ∧ ([(1:ℚ)].sum = 1) ∧
      (max_fn (List.zipWith (fun a b => a - b) [(1:ℚ)] [(1:ℚ)])).sum = 0 := by
  refine ⟨?_, by norm_num, by norm_num [max_fn]⟩
  intro a ha
  simp at ha
  rw [ha]
  norm_num

/-- Claim C6: each orchestrator round grows the sequence by at least 1 and at
most `gamma + 1` tokens, and the `while length < T` loop finishes within
`T - length ≤ total_new_tokens` rounds: any two round budgets at least that
large produce identical results. -/
theorem claim_C6 (E : ℚ → ℚ) (approx target : Oracle) (τ : ℚ) (tk : ℕ) (tp : ℚ)
    (gamma T F1 F2 : ℕ) (pfx : List ℕ) (rs : ℕ → ℚ) (k : ℕ)
    (_hg : 1 ≤ gamma) (hp : pfx ≠ []) :
    (∀ out, specRound E approx target τ tk tp gamma pfx rs k = .ok out →
      pfx.length + 1 ≤ out.seq.length ∧ out.seq.length ≤ pfx.length + (gamma + 1)) ∧
    (T ≤ pfx.length + F1 → T ≤ pfx.length + F2 →
      specLoop E approx target τ tk tp gamma T F1 pfx rs k =
        specLoop E approx target τ tk tp gamma T F2 pfx rs k) := by
  constructor
  · intro out hout
    obtain ⟨h1, h2, -⟩ := specRound_progress E approx target τ tk tp gamma pfx rs k out
      hp hout
    exact ⟨h1, by omega⟩
  · intro h1 h2
    exact specLoop_fuel_eq E approx target τ tk tp gamma T F1 F2 pfx rs k hp h1 h2

/-- Claim C7: whenever the weighted draw produces the reserved token id 0,
`sample` fails with the invalid-token error; the error propagates through the
callers (the autoregressive loop and the speculative orchestrator loop),
aborting the in-flight generation; consequently `sample` never returns token
id 0. -/
theorem claim_C7 :
    (∀ (E : ℚ → ℚ) (l : List ℚ) (τ : ℚ) (tk : ℕ) (tp r : ℚ),
      sampleIdx E l τ tk tp r = 0 → sample E l τ tk tp r = .error .invalidToken) ∧
    (∀ (E : ℚ → ℚ) (l : List ℚ) (τ : ℚ) (tk : ℕ) (tp r : ℚ) (t : ℕ),
      sample E l τ tk tp r = .ok t → t ≠ 0) ∧
    (∀ (E : ℚ → ℚ) (model : Oracle) (x : List ℕ) (N : ℕ) (τ : ℚ) (tk : ℕ) (tp : ℚ)
      (rs : ℕ → ℚ) (k : ℕ) (e : SampleError),
      sample E (lastRow (model x)) τ tk tp (rs k) = .error e →
      autoregressive_sampling E model x (N + 1) τ tk tp rs k = .error e) ∧
    (∀ (E : ℚ → ℚ) (approx target : Oracle) (τ : ℚ) (tk : ℕ) (tp : ℚ)
      (gamma T F : ℕ) (pfx : List ℕ) (rs : ℕ → ℚ) (k : ℕ) (e : SampleError),
      pfx.length < T →
      specRound E approx target τ tk tp gamma pfx rs k = .error e →
      specLoop E approx target τ tk tp gamma T (F + 1) pfx rs k = .error e) := by
  refine ⟨?_, ?_, ?_, ?_⟩
  · intro E l τ tk tp r h
    simp [sample, h]
  · intro E l τ tk tp r t h
    unfold sample at h
    by_cases hz : sampleIdx E l τ tk tp r = 0
    · rw [if_pos hz] at h
      exact absurd h (by simp)
    · rw [if_neg hz] at h
      simp only [Except.ok.injEq] at h
      rw [← h]
      exact hz
  · intro E model x N τ tk tp rs k e h
    rw [autoregressive_succ, h]
  · intro E approx target τ tk tp gamma T F pfx rs k e hT h
    rw [specLoop_succ, if_pos hT, h]

/-- Claim C10: a completed speculative run from a non-empty prompt returns at
least the requested `prefix_len + max_len` tokens and overshoots the request
by at most `gamma` tokens (a final round may append up to `gamma + 1` tokens
past the loop bound). -/
theorem claim_C10 (E : ℚ → ℚ) (pfx : List ℕ) (approx target : Oracle)
    (max_len gamma : ℕ) (τ : ℚ) (tk : ℕ) (tp : ℚ) (rs : ℕ → ℚ) (k : ℕ) (y : List ℕ)
    (hp : pfx ≠ []) (hg : 1 ≤ gamma)
    (h : speculative_sampling E pfx approx target max_len gamma τ tk tp rs k = .ok y) :
    pfx.length + max_len ≤ y.length ∧ y.length ≤ pfx.length + max_len + gamma := by
  unfold speculative_sampling at h
  constructor
  · exact specLoop_ge E approx target τ tk tp gamma (pfx.length + max_len) max_len pfx
      rs k y hp (by omega) h
  · have := specLoop_le E approx target τ tk tp gamma (pfx.length + max_len) max_len pfx
      rs k y hp (by omega) h
    omega

theorem ratExp_pos (v : ℚ) : 0 < ratExp v := by
  unfold ratExp
  split
  · linarith
  · refine div_pos one_pos ?_
    linarith [not_le.mp (by assumption : ¬ 0 ≤ v)]

/-- Stand-in oracle whose fixed distribution makes the sampler draw the
reserved id 0 on the draw `1/2`. -/
def zeroOracle : Oracle := fun s => List.replicate s.length [1, 0]

theorem claim_C1_witness :
    verifyLoop [[(0:ℚ), 1/2, 1/2], [1/2, 1/2, 0]] [[(1:ℚ)/2, 1/4, 1/4], [1/4, 1/4, 1/2]]
      [7, 1, 2] 1 2 (fun _ => 1/2) 0 = (1, 2) := by
  have h := (claim_C1 [[(0:ℚ), 1/2, 1/2], [1/2, 1/2, 0]]
      [[(1:ℚ)/2, 1/4, 1/4], [1/4, 1/4, 1/2]] [7, 1, 2] 1 2 (fun _ => 1/2) 0
      (by intro i hi; interval_cases i <;> norm_num [probAt])).2.1 1
    (by norm_num)
    (by intro t ht; interval_cases t; norm_num [probAt])
    (by norm_num [probAt])
  simpa using h

theorem claim_C2_witness :
    ∃ tok, sample ratExp (lastRow (norm_logits ratExp (constOracle [1, 2]))) 1 0 0
        (halfStream 2) = .ok tok ∧
      (⟨[1, 2, 1], 1, 3⟩ : RoundOut).seq = List.take 2 [1, 2] ++ [tok] ∧
      (⟨[1, 2, 1], 1, 3⟩ : RoundOut).n = 1 := by
  have h := claim_C2 ratExp constOracle constOracle 1 0 0 1 [1] halfStream 0
    ⟨[1, 2, 1], 1, 3⟩ [1, 2] [[0, 0, 1]] 1 1 2
    (by norm_num [specRound, draftLoop, verifyLoop, verifyGo, rejectTest, norm_logits,
      max_fn, sample, sampleIdx, multinomialIdx, multinomialGo, softmax, softmaxQ,
      softmaxW, top_k_top_p_filter, lastRow, constOracle, halfStream, ratExp,
      List.replicate, expW_bot, expW_coe, expW_zero, expW_one, expW_ofNat])
    (by norm_num [draftLoop, sample, sampleIdx, multinomialIdx, multinomialGo, softmax,
      softmaxQ, softmaxW, top_k_top_p_filter, lastRow, constOracle, halfStream, ratExp,
      List.replicate, expW_bot, expW_coe, expW_zero, expW_one, expW_ofNat])
    (by norm_num [verifyLoop, verifyGo, rejectTest, norm_logits, softmax, softmaxQ,
      softmaxW, constOracle, halfStream, ratExp, List.replicate, expW_bot, expW_coe,
      expW_zero, expW_one, expW_ofNat, probAt])
  have h2 := h.2 (by norm_num)
  simpa using h2

theorem claim_C3_witness :
    (⟨[1, 2, 1], 1, 3⟩ : RoundOut).n = ([1] : List ℕ).length + 1 - 1 ∧
      (⟨[1, 2, 1], 1, 3⟩ : RoundOut).seq.length = ([1] : List ℕ).length + 1 + 1 :=
  claim_C3 ratExp constOracle 1 0 0 1 [1] halfStream 0 ⟨[1, 2, 1], 1, 3⟩
    constOracle_causal constOracle_rowComplete (le_refl 1) (by simp)
    (fun m2 => by norm_num [halfStream])
    (by norm_num [specRound, draftLoop, verifyLoop, verifyGo, rejectTest, norm_logits,
      max_fn, sample, sampleIdx, multinomialIdx, multinomialGo, softmax, softmaxQ,
      softmaxW, top_k_top_p_filter, lastRow, constOracle, halfStream, ratExp,
      List.replicate, expW_bot, expW_coe, expW_zero, expW_one, expW_ofNat])

theorem claim_C4_witness :
    rejectTest (9 / 10) 1 0 = false ∧
      verifyLoop [[(0:ℚ), 0, 1]] [[(1:ℚ), 1, 0]] [5, 2] 1 1 (fun _ => 1 / 3) 0 = (1, 1) := by
  have h := claim_C4 [[(0:ℚ), 0, 1]] [[(1:ℚ), 1, 0]] [5, 2] 1 1 (fun _ => 1 / 3) 0
    (by intro i hi; interval_cases i; norm_num [probAt])
  exact ⟨h.1 (9 / 10) 1, by simpa using h.2⟩

theorem claim_C5_witness :
    (max_fn (List.zipWith (fun a b => a - b) [(1:ℚ)/2, 1/2] [1, 0])).sum = 1 := by
  have h := claim_C5 [(1:ℚ)/2, 1/2] [1, 0] (by norm_num)
    (by intro a ha; simp at ha; rw [ha]; norm_num)
    (by intro a ha; simp at ha; rcases ha with h1 | h1 <;> rw [h1] <;> norm_num)
    (by norm_num) (by norm_num)
    (by intro hc; simp only [List.cons.injEq] at hc; norm_num at hc)
  exact h.2

theorem claim_C6_witness :
    (([1] : List ℕ).length + 1 ≤ (⟨[1, 2, 1], 1, 3⟩ : RoundOut).seq.length ∧
      (⟨[1, 2, 1], 1, 3⟩ : RoundOut).seq.length ≤ ([1] : List ℕ).length + (1 + 1)) ∧
    specLoop ratExp constOracle constOracle 1 0 0 1 2 1 [1] halfStream 0 =
      specLoop ratExp constOracle constOracle 1 0 0 1 2 5 [1] halfStream 0 := by
  have h := claim_C6 ratExp constOracle constOracle 1 0 0 1 2 1 5 [1] halfStream 0
    (le_refl 1) (by simp)
  refine ⟨h.1 ⟨[1, 2, 1], 1, 3⟩ ?_, h.2 (by norm_num) (by norm_num)⟩
  norm_num [specRound, draftLoop, verifyLoop, verifyGo, rejectTest, norm_logits,
    max_fn, sample, sampleIdx, multinomialIdx, multinomialGo, softmax, softmaxQ,
    softmaxW, top_k_top_p_filter, lastRow, constOracle, halfStream, ratExp,
    List.replicate, expW_bot, expW_coe, expW_zero, expW_one, expW_ofNat]

theorem claim_C7_witness :
    sample ratExp [1, 0] 1 0 0 (1 / 2) = .error .invalidToken ∧
    autoregressive_sampling ratExp zeroOracle [1] 1 1 0 0 halfStream 0
      = .error .invalidToken ∧
    specLoop ratExp zeroOracle zeroOracle 1 0 0 1 2 1 [1] halfStream 0
      = .error .invalidToken := by
  refine ⟨claim_C7.1 ratExp [1, 0] 1 0 0 (1 / 2)
    (by norm_num [sampleIdx, multinomialIdx, multinomialGo, softmax, softmaxQ, softmaxW,
      top_k_top_p_filter, ratExp, expW_bot, expW_coe, expW_zero, expW_one, expW_ofNat]),
    ?_, ?_⟩
  · exact claim_C7.2.2.1 ratExp zeroOracle [1] 0 1 0 0 halfStream 0 .invalidToken
      (by norm_num [sample, sampleIdx, multinomialIdx, multinomialGo, softmax, softmaxQ,
        softmaxW, top_k_top_p_filter, lastRow, zeroOracle, halfStream, ratExp,
        List.replicate, expW_bot, expW_coe, expW_zero, expW_one, expW_ofNat])
  · exact claim_C7.2.2.2 ratExp zeroOracle zeroOracle 1 0 0 1 2 0 [1] halfStream 0
      .invalidToken (by norm_num)
      (by norm_num [specRound, draftLoop, sample, sampleIdx, multinomialIdx,
        multinomialGo, softmax, softmaxQ, softmaxW, top_k_top_p_filter, lastRow,
        zeroOracle, halfStream, ratExp, List.replicate, expW_bot, expW_coe, expW_zero,
        expW_one, expW_ofNat])

theorem claim_C8_witness :
    sampleIdx ratExp [0, 3, 1] 1 1 (1 / 2) (1 / 2) = 1 ∧
      sample ratExp [0, 3, 1] 1 1 (1 / 2) (1 / 2) = .ok 1 := by
  have h := claim_C8 ratExp [0, 3, 1] 1 (1 / 2) (1 / 2) 1 ratExp_pos (by norm_num)
    (by norm_num) (by norm_num) ?_
  · exact ⟨h.1, h.2.1 (by norm_num)⟩
  · intro j hj hne
    simp only [List.length_cons, List.length_nil] at hj
    interval_cases j
    · norm_num [List.getD]
    · exact absurd rfl hne
    · norm_num [List.getD]

theorem claim_C9_witness :
    ([1, 2] : List ℕ).length = ([1] : List ℕ).length + 1 ∧
      List.take ([1] : List ℕ).length [1, 2] = [1] ∧
      (∃ t, sample ratExp (lastRow (constOracle [1])) 1 0 0 (halfStream 0) = .ok t ∧
        ([1, 2] : List ℕ)[1]? = some t) := by
  have h := claim_C9 ratExp constOracle [1] 1 1 0 0 halfStream 0 [1, 2] (by simp)
    (by norm_num [autoregressive_sampling, sample, sampleIdx, multinomialIdx,
      multinomialGo, softmax, softmaxQ, softmaxW, top_k_top_p_filter, lastRow,
      constOracle, halfStream, ratExp, List.replicate, expW_bot, expW_coe, expW_zero,
      expW_one, expW_ofNat])
  exact ⟨h.1, h.2.1, by simpa using h.2.2 0 (by omega)⟩

theorem claim_C10_witness :
    ([1] : List ℕ).length + 1 ≤ ([1, 2, 1] : List ℕ).length ∧
      ([1, 2, 1] : List ℕ).length ≤ ([1] : List ℕ).length + 1 + 1 :=
  claim_C10 ratExp [1] constOracle constOracle 1 1 1 0 0 halfStream 0 [1, 2, 1]
    (by simp) (le_refl 1)
    (by norm_num [speculative_sampling, specLoop, specRound, draftLoop, verifyLoop,
      verifyGo, rejectTest, norm_logits, max_fn, sample, sampleIdx, multinomialIdx,
      multinomialGo, softmax, softmaxQ, softmaxW, top_k_top_p_filter, lastRow,
      constOracle, halfStream, ratExp, List.replicate, expW_bot, expW_coe, expW_zero,
      expW_one, expW_ofNat])

end SpecSampling
